import Mathlib

/-!
Verification of the remarkable-rs cloud client against its specification.

The development shallowly embeds the pure logic of the repository:

* `src/remarkable-cloud-api/src/documents.rs` — the `Parent` wire codec,
  the `Document` record, and the `Documents` index (`get`, `children`,
  `get_by_path`, the deserializer's insert loop);
* `src/remarkable-cloud-api/src/client.rs` — the archive helpers
  (`prepare_empty_zip_content`, `id_from_zip`, `replace_id_in_zip`) and the
  pure protocol dataflow of `upload_zip` / `create_folder`.

Zip archives are modelled as lists of entries (name, payload bytes); the
archive codec itself is an external collaborator per the specification.
UUIDs are modelled as 32 hex digits; `Uuid::parse_str` of the `uuid` crate
accepts the simple (32 hex chars), hyphenated (8-4-4-4-12), braced and urn
textual forms with case-insensitive hex digits, and `to_string` prints the
canonical lowercase hyphenated form; the model mirrors this.

Rust functions that recurse on strings (`str::replace`,
`str::trim_end_matches`, the recursive `get_by_path`) are embedded with an
explicit fuel argument (always instantiated with a sufficient bound, and
proved fuel-invariant) so that every definition is executable by `decide`.
-/

/-! ### Hex digits and UUIDs -/

/-- Lowercase hex digit character for a nibble, as printed by
`Uuid::to_string` (canonical form is lowercase). -/
def hexChar (d : Fin 16) : Char :=
  if d.val < 10 then Char.ofNat (48 + d.val) else Char.ofNat (87 + d.val)

/-- Hex digit value of a character; accepts `0-9`, `a-f` and `A-F`
(the `uuid` crate parser is case-insensitive). -/
def hexVal? (c : Char) : Option (Fin 16) :=
  if h : 48 ≤ c.toNat ∧ c.toNat ≤ 57 then some ⟨c.toNat - 48, by omega⟩
  else if h2 : 97 ≤ c.toNat ∧ c.toNat ≤ 102 then some ⟨c.toNat - 87, by omega⟩
  else if h3 : 65 ≤ c.toNat ∧ c.toNat ≤ 70 then some ⟨c.toNat - 55, by omega⟩
  else none

/-- A UUID is 128 bits, i.e. 32 hex nibbles. -/
def Uuid : Type := { l : List (Fin 16) // l.length = 32 }

instance : DecidableEq Uuid := fun a b =>
  decidable_of_iff (a.val = b.val) Subtype.ext_iff.symm

instance {ε α : Type} [DecidableEq ε] [DecidableEq α] :
    DecidableEq (Except ε α) := fun a b =>
  match a, b with
  | .ok x, .ok y =>
    decidable_of_iff (x = y) ⟨fun h => h ▸ rfl, fun h => Except.ok.inj h⟩
  | .error x, .error y =>
    decidable_of_iff (x = y) ⟨fun h => h ▸ rfl, fun h => Except.error.inj h⟩
  | .ok _, .error _ => isFalse fun h => Except.noConfusion h
  | .error _, .ok _ => isFalse fun h => Except.noConfusion h

/-- `Uuid::to_string`: canonical lowercase hyphenated form
(8-4-4-4-12 hex digits). -/
def uuidToChars (u : Uuid) : List Char :=
  let h := u.val.map hexChar
  h.take 8 ++ '-' :: ((h.drop 8).take 4 ++ '-' ::
    ((h.drop 12).take 4 ++ '-' :: ((h.drop 16).take 4 ++ '-' :: h.drop 20)))

/-- Parse a run of hex characters into nibbles; `none` if any character is
not a hex digit. -/
def hexList : List Char → Option (List (Fin 16))
  | [] => some []
  | c :: cs =>
    match hexVal? c, hexList cs with
    | some d, some ds => some (d :: ds)
    | _, _ => none

/-- Interpret exactly 32 hex characters as a UUID. -/
def parseHexFixed (cs : List Char) : Option Uuid :=
  match hexList cs with
  | some ds => if h : ds.length = 32 then some ⟨ds, h⟩ else none
  | none => none

/-- Split off exactly `n` leading elements, failing if fewer exist. -/
def takeExact : Nat → List Char → Option (List Char × List Char)
  | 0, cs => some ([], cs)
  | _ + 1, [] => none
  | n + 1, c :: cs =>
    match takeExact n cs with
    | some (l, r) => some (c :: l, r)
    | none => none

/-- Consume one `'-'`. -/
def expectHyphen : List Char → Option (List Char)
  | '-' :: cs => some cs
  | _ => none

/-- Strip the 8-4-4-4-12 hyphen layout, returning the 32 hex characters;
fails unless the input is exactly 36 characters with hyphens at positions
8, 13, 18 and 23. -/
def stripHyphens (cs : List Char) : Option (List Char) :=
  (takeExact 8 cs).bind fun (a, cs) =>
  (expectHyphen cs).bind fun cs =>
  (takeExact 4 cs).bind fun (b, cs) =>
  (expectHyphen cs).bind fun cs =>
  (takeExact 4 cs).bind fun (c, cs) =>
  (expectHyphen cs).bind fun cs =>
  (takeExact 4 cs).bind fun (d, cs) =>
  (expectHyphen cs).bind fun cs =>
  (takeExact 12 cs).bind fun (e, rest) =>
  if rest.isEmpty then some (a ++ b ++ c ++ d ++ e) else none

/-- Parse a hyphenated UUID string. -/
def parseHyph (cs : List Char) : Option Uuid :=
  match stripHyphens cs with
  | some hx => parseHexFixed hx
  | none => none

/-- The `urn:uuid:` tag recognised by the `uuid` crate parser. -/
def urnTag : List Char := ['u', 'r', 'n', ':', 'u', 'u', 'i', 'd', ':']

/-- Does `pat` occur at the head of `s`? (Boolean, like
`str::starts_with` / the prefix test inside `str::replace`.) -/
def leadsWith : List Char → List Char → Bool
  | [], _ => true
  | _ :: _, [] => false
  | p :: ps, c :: cs => p == c && leadsWith ps cs

/-- `Uuid::parse_str`: accepts the simple (exactly 32 hex characters),
hyphenated, `urn:uuid:`-tagged hyphenated and braced hyphenated forms. -/
def uuidParseChars (cs : List Char) : Option Uuid :=
  if cs.length = 32 then parseHexFixed cs
  else if leadsWith urnTag cs then parseHyph (cs.drop 9)
  else if cs.head? = some '{' ∧ cs.getLast? = some '}' then
    parseHyph (cs.drop 1).dropLast
  else parseHyph cs

/-! ### Rust string helpers: `ends_with`, `trim_end_matches`, `replace` -/

/-- `str::ends_with` on character lists. -/
def endsWithB (p s : List Char) : Bool := s.drop (s.length - p.length) == p

/-- Fuel-indexed body of `str::trim_end_matches`: repeatedly remove the
suffix `p`.  Any fuel of at least `s.length` computes the fixpoint. -/
def trimGo (p : List Char) : Nat → List Char → List Char
  | 0, s => s
  | f + 1, s =>
    if !p.isEmpty && endsWithB p s then trimGo p f (s.take (s.length - p.length))
    else s

/-- `str::trim_end_matches`: remove every trailing occurrence of `p`. -/
def trimEndMatches (p s : List Char) : List Char := trimGo p s.length s

/-- Fuel-indexed body of `str::replace`: leftmost non-overlapping
replacement of `pat` by `rep`.  For non-empty `pat`, any fuel of at least
`s.length` computes the replacement. -/
def replaceGo (pat rep : List Char) : Nat → List Char → List Char
  | _, [] => []
  | 0, s => s
  | f + 1, c :: cs =>
    if leadsWith pat (c :: cs) then
      rep ++ replaceGo pat rep f ((c :: cs).drop pat.length)
    else c :: replaceGo pat rep f cs

/-- `str::replace pat rep`: replace every (leftmost, non-overlapping)
occurrence of `pat` by `rep`. -/
def replaceAll (pat rep s : List Char) : List Char := replaceGo pat rep s.length s

/-! ### Archives and the rekeying helpers (`client.rs`) -/

/-- One archive entry: a name and raw payload bytes.  The zip container
codec is an external collaborator; an opened archive is its entry list in
stored order (`zip.by_index(0..zip.len())`). -/
structure Entry where
  name : List Char
  content : List Nat
deriving DecidableEq

/-- The error enumeration of `error.rs` (payload-carrying variants keep
only their tag; the payloads are foreign types). -/
inductive Err where
  | InvalidZip
  | EmptyResult
  | RmCloudError
  | UuidError
  | ZipError
  | IoError
  | HttpError
  | JsonError
deriving DecidableEq

/-- The `".content"` suffix recognised by `id_from_zip`. -/
def dotContent : List Char := ['.', 'c', 'o', 'n', 't', 'e', 'n', 't']

/-- `Client::id_from_zip`: scan entries in stored order; the first entry
whose name ends with `".content"` yields the id obtained by
`trim_end_matches(".content")` followed by `Uuid::parse_str` (whose failure
propagates as `UuidError` through `?`); `InvalidZip` if no entry has the
suffix. -/
def id_from_zip : List Entry → Except Err Uuid
  | [] => .error .InvalidZip
  | e :: rest =>
    if endsWithB dotContent e.name then
      match uuidParseChars (trimEndMatches dotContent e.name) with
      | some u => .ok u
      | none => .error .UuidError
    else id_from_zip rest

/-- `Client::replace_id_in_zip`: find the current primary id, then rebuild
the archive, renaming every entry by `str::replace` of the old id's string
form with the new id's string form; payload bytes are raw-copied. -/
def replace_id_in_zip (newId : Uuid) (zip : List Entry) : Except Err (List Entry) :=
  match id_from_zip zip with
  | .error e => .error e
  | .ok currentId =>
    .ok (zip.map fun e =>
      { name := replaceAll (uuidToChars currentId) (uuidToChars newId) e.name
        content := e.content })

/-- `Client::prepare_empty_zip_content`: a one-entry archive
`<id>.content` containing the two bytes `b"{}"` (123, 125). -/
def prepare_empty_zip_content (id : Uuid) : List Entry :=
  [{ name := uuidToChars id ++ dotContent, content := [123, 125] }]

/-! ### The upload protocol dataflow (`upload_zip`, `create_folder`) -/

/-- Deserialized element of the upload-request response array. -/
structure UploadReqResponse where
  id : Uuid
  version : Nat
  message : String
  success : Bool
  blob_url_put : String
  blob_url_put_expires : String
deriving DecidableEq

/-- Deserialized element of the update-status response array. -/
structure UpdateStatusResponse where
  id : Uuid
  version : Nat
  message : String
  success : Bool
deriving DecidableEq

/-- The remote's already-deserialized answers for one protocol run:
the upload-request response array, the HTTP status of the blob PUT, and
the update-status response array.  (Transport and JSON decoding are
external; their failures abort before the logic modelled here.) -/
structure Env where
  reqResponses : List UploadReqResponse
  putStatus : Nat
  statusResponses : List UpdateStatusResponse

/-- Outcome of a protocol run: a value, an `Err`, or a Rust panic
(`Vec::pop().unwrap()` on an empty vector). -/
inductive POutcome (α : Type) where
  | ok (a : α)
  | err (e : Err)
  | panic
deriving DecidableEq

/-- `Client::upload_zip` dataflow.  Returns the bytes PUT to the blob URL
together with the id returned to the caller.  Mirrors `client.rs`:
`Vec::pop` takes the *last* response element; an empty upload-request
array is `RmCloudError`; `upload_doc.id` is overwritten with the
server-confirmed id but the rekey call passes the original `id` argument;
a non-1-length update-status array is only logged, and `pop().unwrap()`
panics when it is empty. -/
def upload_zip (id : Uuid) (zip : List Entry) (env : Env) :
    POutcome (List Entry × Uuid) :=
  match env.reqResponses.getLast? with
  | none => .err .RmCloudError
  | some r =>
    if r.success = false then .err .RmCloudError
    else
      match replace_id_in_zip id zip with
      | .error e => .err e
      | .ok zipContent =>
        if env.putStatus ≠ 200 then .err .RmCloudError
        else
          match env.statusResponses.getLast? with
          | none => .panic
          | some u =>
            if u.success then .ok (zipContent, u.id) else .err .RmCloudError

/-- `Client::create_folder` dataflow: as `upload_zip`, but the uploaded
archive is synthesized by `prepare_empty_zip_content(folder_doc.id)` where
`folder_doc.id` has been overwritten with the server-confirmed id. -/
def create_folder (id : Uuid) (env : Env) : POutcome (List Entry × Uuid) :=
  match env.reqResponses.getLast? with
  | none => .err .RmCloudError
  | some r =>
    if r.success = false then .err .RmCloudError
    else
      let zipContent := prepare_empty_zip_content r.id
      if env.putStatus ≠ 200 then .err .RmCloudError
      else
        match env.statusResponses.getLast? with
        | none => .panic
        | some u =>
          if u.success then .ok (zipContent, u.id) else .err .RmCloudError

/-! ### The `Parent` wire codec (`documents.rs`) -/

/-- Three-way parent reference. -/
inductive Parent where
  | Root
  | Trash
  | Node (id : Uuid)
deriving DecidableEq

/-- `Parent::to_rm_string`: `Root ↦ ""`, `Trash ↦ "trash"`,
`Node id ↦ id.to_string()`. -/
def Parent.to_rm_chars : Parent → List Char
  | .Root => []
  | .Trash => "trash".data
  | .Node id => uuidToChars id

/-- `Parent::deserialize_rm_parent`: `"" ↦ Root`, `"trash" ↦ Trash`,
otherwise `Uuid::parse_str` (serde error modelled as `none`). -/
def deserialize_rm_parent (cs : List Char) : Option Parent :=
  if cs = [] then some .Root
  else if cs = "trash".data then some .Trash
  else (uuidParseChars cs).map Parent.Node

/-! ### Documents and the index (`documents.rs`) -/

/-- One remote record, as deserialized from the document list. -/
structure Document where
  id : Uuid
  visible_name : String
  parent : Parent
  doc_type : String
  current_page : Int
  bookmarked : Bool
  message : String
  modified_client : Nat
  blob_url_get : String
  blob_url_get_expires : Nat
deriving DecidableEq

/-- `HashMap::insert` on the id-keyed map: replace the record with the
same id, or add the record.  (The list models the map's value collection;
its order stands for the map's arbitrary iteration order.) -/
def insertDoc : List Document → Document → List Document
  | [], d => [d]
  | e :: es, d => if e.id = d.id then d :: es else e :: insertDoc es d

/-- The `Documents` deserializer: fold the flat record sequence through
`by_id.insert(doc.id, doc)` (later duplicates overwrite earlier ones). -/
def buildIndex (l : List Document) : List Document :=
  l.foldl insertDoc []

/-- `Documents::get`: lookup by id. -/
def getDoc : List Document → Uuid → Option Document
  | [], _ => none
  | d :: rest, u => if d.id = u then some d else getDoc rest u

/-- `Documents::children`: all documents whose `parent` equals the query
(structural equality), in iteration order. -/
def childrenDocs : List Document → Parent → List Document
  | [], _ => []
  | d :: rest, p =>
    if d.parent = p then d :: childrenDocs rest p else childrenDocs rest p

/-! ### Path resolution (`Documents::get_by_path`) -/

/-- `Path::file_name` for a relative path given as its component list:
the last component, or `None` for the empty path. -/
def lastName? (p : List String) : Option String := p.getLast?

/-- `Path::parent`: `None` for the empty path, otherwise the path with
its last component removed (`Path::new("A").parent() == Some("")`). -/
def parentPath : List String → Option (List String)
  | [] => none
  | x :: xs => some ((x :: xs).dropLast)

/-- The candidate's parent-as-id: `Some` only for `Node` parents
(the `match d.parent { Parent::Node(p) => Some(p), _ => None }` step). -/
def nodeParent? : Parent → Option Uuid
  | .Node u => some u
  | _ => none

/-- One scan of the candidate list for `get_by_path`, parameterized by the
recursive resolver used for the path's parent.  Mirrors the `for` loop:
a name-matching candidate is returned at once when
`path.parent().zip(d_parent)` is `None`; otherwise the prefix is resolved
and compared against the candidate's parent id, `continue`-ing on
mismatch or resolution failure. -/
def resolveScan (recurse : List String → Option Document)
    (path : List String) : List Document → Option Document
  | [] => none
  | d :: rest =>
    if d.visible_name = (lastName? path).getD "" then
      match parentPath path, nodeParent? d.parent with
      | some pp, some pid =>
        (match recurse pp with
         | none => resolveScan recurse path rest
         | some par =>
           if par.id = pid then some d else resolveScan recurse path rest)
      | _, _ => some d
    else resolveScan recurse path rest

/-- Fuel-indexed `Documents::get_by_path`; the recursion is on the path's
parent, which is strictly shorter, so fuel `path.length + 1` suffices. -/
def resolveFuel (all : List Document) : Nat → List String → Option Document
  | 0, _ => none
  | f + 1, path => resolveScan (resolveFuel all f) path all

/-- `Documents::get_by_path` over the index `all` (the list's order stands
for the map's arbitrary value-iteration order). -/
def get_by_path (all : List Document) (path : List String) : Option Document :=
  resolveFuel all (path.length + 1) path

/-! ### Concrete sample data for witnesses and counterexamples -/

/-- `k` copies of the `".content"` suffix, appended to the right. -/
def dotRepeat : Nat → List Char
  | 0 => []
  | k + 1 => dotRepeat k ++ dotContent

/-- The all-zero UUID `00000000-0000-0000-0000-000000000000`. -/
def u0 : Uuid := ⟨List.replicate 32 0, by simp⟩

/-- The all-ones UUID `11111111-1111-1111-1111-111111111111`. -/
def u1 : Uuid := ⟨List.replicate 32 1, by simp⟩

/-- The *simple* textual form of a UUID: its 32 hex digits without
hyphens (also accepted by `Uuid::parse_str`). -/
def simpleChars (u : Uuid) : List Char := u.val.map hexChar

/-- An archive whose primary entry embeds its id in the simple
(non-hyphenated) textual form. -/
def aSimple : List Entry := [{ name := simpleChars u0 ++ dotContent, content := [] }]

/-- An archive keyed to `u0` in canonical form. -/
def aCanon : List Entry := [{ name := uuidToChars u0 ++ dotContent, content := [9] }]

/-- An archive entry whose stripped name is not a UUID at all. -/
def aJunk : List Entry := [{ name := ['x', 'y', 'z'] ++ dotContent, content := [] }]

/-- A successful upload-request response confirming id `u`. -/
def okReq (u : Uuid) : UploadReqResponse :=
  { id := u, version := 1, message := "", success := true
    blob_url_put := "put", blob_url_put_expires := "never" }

/-- A successful update-status response carrying id `u`. -/
def okStatus (u : Uuid) : UpdateStatusResponse :=
  { id := u, version := 1, message := "", success := true }

/-- Environment where the server reassigns the id to `u1` and every phase
succeeds. -/
def envReassign : Env :=
  { reqResponses := [okReq u1], putStatus := 200, statusResponses := [okStatus u1] }

/-- Environment whose update-status response array is empty. -/
def envNoStatus : Env :=
  { reqResponses := [okReq u1], putStatus := 200, statusResponses := [] }

/-- A document record with the index-relevant fields set. -/
def mkDoc (id : Uuid) (nm : String) (p : Parent) : Document :=
  { id := id, visible_name := nm, parent := p, doc_type := "DocumentType"
    current_page := 0, bookmarked := false, message := "", modified_client := 0
    blob_url_get := "", blob_url_get_expires := 0 }

/-- Root document `A`. -/
def docA : Document := mkDoc u0 "A" .Root

/-- Document `B`, child of `A`. -/
def docB : Document := mkDoc u1 "B" (.Node u0)

/-- A *root*-parented document named `B`. -/
def docRootB : Document := mkDoc u1 "B" .Root

/-! ### Lemmas about `leadsWith` and `endsWithB` -/

theorem leadsWith_iff (p s : List Char) :
    leadsWith p s = true ↔ ∃ t, s = p ++ t := by
  induction p generalizing s with
  | nil => simp [leadsWith]
  | cons a ps ih =>
    cases s with
    | nil => simp [leadsWith]
    | cons c cs =>
      simp only [leadsWith, Bool.and_eq_true, beq_iff_eq, ih, List.cons_append,
        List.cons.injEq]
      constructor
      · rintro ⟨rfl, t, rfl⟩; exact ⟨t, rfl, rfl⟩
      · rintro ⟨t, rfl, rfl⟩; exact ⟨rfl, t, rfl⟩

theorem leadsWith_self_append (p t : List Char) : leadsWith p (p ++ t) = true :=
  (leadsWith_iff p (p ++ t)).mpr ⟨t, rfl⟩

theorem endsWithB_iff (p s : List Char) :
    endsWithB p s = true ↔ s.drop (s.length - p.length) = p := by
  simp [endsWithB]

theorem endsWithB_length_le {p s : List Char} (h : endsWithB p s = true) :
    p.length ≤ s.length := by
  rw [endsWithB_iff] at h
  have := congrArg List.length h
  simp only [List.length_drop] at this
  omega

theorem endsWithB_nil {p : List Char} (hp : p ≠ []) : endsWithB p [] = false := by
  cases p with
  | nil => exact absurd rfl hp
  | cons a ps => simp [endsWithB]

theorem endsWithB_append_self (p x : List Char) : endsWithB p (x ++ p) = true := by
  rw [endsWithB_iff, List.length_append]
  rw [show x.length + p.length - p.length = x.length by omega]
  exact List.drop_left x p

theorem endsWithB_append {p b : List Char} (a : List Char)
    (h : p.length ≤ b.length) : endsWithB p (a ++ b) = endsWithB p b := by
  unfold endsWithB
  rw [List.length_append,
    show a.length + b.length - p.length = a.length + (b.length - p.length) by omega,
    List.drop_append]

theorem endsWithB_cons {p : List Char} (c : Char) {cs : List Char}
    (h : p.length ≤ cs.length) : endsWithB p (c :: cs) = endsWithB p cs := by
  have := endsWithB_append (p := p) (b := cs) [c] h
  simpa using this

theorem endsWithB_same_length {p s : List Char} (h : s.length = p.length) :
    endsWithB p s = true ↔ s = p := by
  rw [endsWithB_iff, h, Nat.sub_self, List.drop_zero]

/-! ### Lemmas about `replaceAll` -/

theorem replaceGo_nil (pat rep : List Char) (f : Nat) :
    replaceGo pat rep f [] = [] := by
  cases f <;> rfl

theorem replaceGo_fuel {pat : List Char} (rep : List Char) (hp : pat ≠ []) :
    ∀ f g s, s.length ≤ f → s.length ≤ g →
      replaceGo pat rep f s = replaceGo pat rep g s := by
  have hp1 : 1 ≤ pat.length := List.length_pos.mpr hp
  intro f
  induction f with
  | zero =>
    intro g s hf _
    cases s with
    | nil => rw [replaceGo_nil, replaceGo_nil]
    | cons c cs => simp at hf
  | succ f ih =>
    intro g s hf hg
    cases s with
    | nil => rw [replaceGo_nil, replaceGo_nil]
    | cons c cs =>
      cases g with
      | zero => simp at hg
      | succ g' =>
        simp only [replaceGo]
        by_cases h : leadsWith pat (c :: cs) = true
        · rw [if_pos h, if_pos h]
          congr 1
          apply ih
          · simp only [List.length_drop, List.length_cons]
            simp only [List.length_cons] at hf
            omega
          · simp only [List.length_drop, List.length_cons]
            simp only [List.length_cons] at hg
            omega
        · rw [if_neg h, if_neg h]
          congr 1
          apply ih
          · simp only [List.length_cons] at hf; omega
          · simp only [List.length_cons] at hg; omega

theorem replaceAll_nil (pat rep : List Char) : replaceAll pat rep [] = [] := rfl

theorem replaceAll_pos {pat s : List Char} (rep : List Char) (hp : pat ≠ [])
    (h : leadsWith pat s = true) :
    replaceAll pat rep s = rep ++ replaceAll pat rep (s.drop pat.length) := by
  have hp1 : 1 ≤ pat.length := List.length_pos.mpr hp
  obtain ⟨t, rfl⟩ := (leadsWith_iff pat s).mp h
  cases hs : pat ++ t with
  | nil =>
    rcases List.append_eq_nil.mp hs with ⟨h1, _⟩
    exact absurd h1 hp
  | cons c cs =>
    have hdl : ((c :: cs).drop pat.length).length ≤ cs.length := by
      simp only [List.length_drop, List.length_cons]; omega
    calc replaceAll pat rep (c :: cs)
        = replaceGo pat rep (cs.length + 1) (c :: cs) := rfl
      _ = rep ++ replaceGo pat rep cs.length ((c :: cs).drop pat.length) := by
          simp only [replaceGo, if_pos (hs ▸ h)]
      _ = rep ++ replaceAll pat rep ((c :: cs).drop pat.length) := by
          congr 1
          exact replaceGo_fuel rep hp cs.length _ _ hdl (Nat.le_refl _)

theorem replaceAll_neg {pat : List Char} (rep : List Char) {c : Char}
    {cs : List Char} (h : ¬ leadsWith pat (c :: cs) = true) :
    replaceAll pat rep (c :: cs) = c :: replaceAll pat rep cs := by
  show replaceGo pat rep (c :: cs).length (c :: cs) = _
  simp only [List.length_cons, replaceGo, if_neg h]
  rfl

theorem replaceAll_length {pat rep : List Char} (hp : pat ≠ [])
    (hl : rep.length = pat.length) (s : List Char) :
    (replaceAll pat rep s).length = s.length := by
  have hp1 : 1 ≤ pat.length := List.length_pos.mpr hp
  suffices hgen : ∀ (f : Nat) (s : List Char), s.length ≤ f →
      (replaceGo pat rep f s).length = s.length by
    exact hgen s.length s (Nat.le_refl _)
  intro f
  induction f with
  | zero =>
    intro s hf
    cases s with
    | nil => rw [replaceGo_nil]
    | cons c cs => simp at hf
  | succ f ih =>
    intro s hf
    cases s with
    | nil => rw [replaceGo_nil]
    | cons c cs =>
      simp only [List.length_cons] at hf
      simp only [replaceGo]
      by_cases h : leadsWith pat (c :: cs) = true
      · rw [if_pos h]
        obtain ⟨t, ht⟩ := (leadsWith_iff pat (c :: cs)).mp h
        have hct : (c :: cs).length = pat.length + t.length := by
          rw [ht]; simp
        simp only [List.length_append, List.length_cons] at hct ⊢
        rw [ih]
        · simp only [List.length_drop, List.length_cons]
          omega
        · simp only [List.length_drop, List.length_cons]
          omega
      · rw [if_neg h]
        simp only [List.length_cons]
        rw [ih cs (by omega)]

theorem replaceAll_small {pat : List Char} (rep : List Char) {s : List Char}
    (h : s.length < pat.length) : replaceAll pat rep s = s := by
  suffices hgen : ∀ (f : Nat) (s : List Char), s.length < pat.length →
      replaceGo pat rep f s = s by
    exact hgen s.length s h
  intro f
  induction f with
  | zero =>
    intro s _
    cases s with
    | nil => rw [replaceGo_nil]
    | cons c cs => rfl
  | succ f ih =>
    intro s hs
    cases s with
    | nil => rw [replaceGo_nil]
    | cons c cs =>
      simp only [replaceGo]
      simp only [List.length_cons] at hs
      have hnot : ¬ leadsWith pat (c :: cs) = true := by
        intro h
        obtain ⟨t, ht⟩ := (leadsWith_iff pat (c :: cs)).mp h
        have := congrArg List.length ht
        simp only [List.length_append, List.length_cons] at this
        omega
      rw [if_neg hnot]
      rw [ih cs (by omega)]

theorem replaceAll_of_not_mem {pat rep s : List Char} {ch : Char}
    (hch : ch ∈ pat) (hns : ch ∉ s) : replaceAll pat rep s = s := by
  suffices hgen : ∀ (f : Nat) (s : List Char), ch ∉ s → replaceGo pat rep f s = s by
    exact hgen s.length s hns
  intro f
  induction f with
  | zero =>
    intro s _
    cases s with
    | nil => rw [replaceGo_nil]
    | cons c cs => rfl
  | succ f ih =>
    intro s hs
    cases s with
    | nil => rw [replaceGo_nil]
    | cons c cs =>
      simp only [replaceGo]
      have hnot : ¬ leadsWith pat (c :: cs) = true := by
        intro h
        obtain ⟨t, ht⟩ := (leadsWith_iff pat (c :: cs)).mp h
        exact hs (ht ▸ List.mem_append_left t hch)
      rw [if_neg hnot]
      have : ch ∉ cs := fun hm => hs (List.mem_cons_of_mem c hm)
      rw [ih cs this]

theorem replaceAll_cons_hit {pat t : List Char} (rep : List Char)
    (hp : pat ≠ []) :
    replaceAll pat rep (pat ++ t) = rep ++ replaceAll pat rep t := by
  rw [replaceAll_pos rep hp (leadsWith_self_append pat t), List.drop_left]

/-! ### Lemmas about `trimEndMatches` -/

theorem trimGo_fuel {p : List Char} (hp : p ≠ []) :
    ∀ f g s, s.length ≤ f → s.length ≤ g → trimGo p f s = trimGo p g s := by
  have hp1 : 1 ≤ p.length := List.length_pos.mpr hp
  intro f
  induction f with
  | zero =>
    intro g s hf _
    have hs : s = [] := List.length_eq_zero.mp (Nat.le_zero.mp hf)
    subst hs
    cases g with
    | zero => rfl
    | succ g' =>
      simp only [trimGo, endsWithB_nil hp, Bool.and_false]
      rfl
  | succ f ih =>
    intro g s hf hg
    cases g with
    | zero =>
      have hs : s = [] := List.length_eq_zero.mp (Nat.le_zero.mp hg)
      subst hs
      simp only [trimGo, endsWithB_nil hp, Bool.and_false]
      rfl
    | succ g' =>
      simp only [trimGo]
      by_cases h : (!p.isEmpty && endsWithB p s) = true
      · rw [if_pos h, if_pos h]
        have hB : endsWithB p s = true := (Bool.and_eq_true _ _).mp h |>.2
        have hle : p.length ≤ s.length := endsWithB_length_le hB
        apply ih
        · simp only [List.length_take]; omega
        · simp only [List.length_take]; omega
      · rw [if_neg h, if_neg h]

theorem trimGo_succ (p : List Char) (f : Nat) (s : List Char) :
    trimGo p (f + 1) s =
      if (!p.isEmpty && endsWithB p s) = true then
        trimGo p f (s.take (s.length - p.length))
      else s := rfl

theorem trimEndMatches_step {p s : List Char} (hp : p ≠ [])
    (h : endsWithB p s = true) :
    trimEndMatches p s = trimEndMatches p (s.take (s.length - p.length)) := by
  have hp1 : 1 ≤ p.length := List.length_pos.mpr hp
  have hle : p.length ≤ s.length := endsWithB_length_le h
  have hpe : (!p.isEmpty && endsWithB p s) = true := by
    cases p with
    | nil => exact absurd rfl hp
    | cons a ps => simp [h]
  obtain ⟨n, hn⟩ : ∃ n, s.length = n + 1 := ⟨s.length - 1, by omega⟩
  show trimGo p s.length s = _
  rw [hn, trimGo_succ, if_pos hpe, hn]
  exact trimGo_fuel hp n _ _ (by simp only [List.length_take]; omega)
    (Nat.le_refl _)

theorem trimEndMatches_no_suffix {p s : List Char}
    (h : endsWithB p s = false) : trimEndMatches p s = s := by
  cases hs : s.length with
  | zero =>
    show trimGo p s.length s = s
    rw [hs]
    rfl
  | succ n =>
    show trimGo p s.length s = s
    rw [hs, trimGo_succ, hs]
    simp only [h, Bool.and_false]
    rfl

theorem trimEndMatches_append_self {p x : List Char} (hp : p ≠ []) :
    trimEndMatches p (x ++ p) = trimEndMatches p x := by
  rw [trimEndMatches_step hp (endsWithB_append_self p x)]
  congr 1
  rw [List.length_append, show x.length + p.length - p.length = x.length by omega]
  exact List.take_left x p

theorem trimEndMatches_dotRepeat (x : List Char) (k : Nat) :
    trimEndMatches dotContent (x ++ dotRepeat k) = trimEndMatches dotContent x := by
  induction k with
  | zero => simp [dotRepeat]
  | succ k ih =>
    have : x ++ dotRepeat (k + 1) = (x ++ dotRepeat k) ++ dotContent := by
      simp [dotRepeat]
    rw [this, trimEndMatches_append_self (by decide), ih]

/-! ### Lemmas about the UUID codec -/

theorem hexVal?_hexChar : ∀ d : Fin 16, hexVal? (hexChar d) = some d := by decide

theorem hexChar_ne_special :
    ∀ d : Fin 16, hexChar d ≠ 'u' ∧ hexChar d ≠ '{' ∧ hexChar d ≠ '.' ∧
      hexChar d ≠ '-' := by decide

theorem hexList_map (l : List (Fin 16)) : hexList (l.map hexChar) = some l := by
  induction l with
  | nil => rfl
  | cons d ds ih => simp [hexList, hexVal?_hexChar, ih]

theorem parseHexFixed_map (l : List (Fin 16)) (h : l.length = 32) :
    parseHexFixed (l.map hexChar) = some ⟨l, h⟩ := by
  simp [parseHexFixed, hexList_map, h]

theorem takeExact_append (l r : List Char) :
    takeExact l.length (l ++ r) = some (l, r) := by
  induction l with
  | nil => rfl
  | cons c cs ih => simp [takeExact, ih]

theorem uuidToChars_length (u : Uuid) : (uuidToChars u).length = 36 := by
  have hh : (u.val.map hexChar).length = 32 := by simp [u.2]
  simp only [uuidToChars, List.length_append, List.length_cons,
    List.length_take, List.length_drop, hh]
  omega

theorem takeExact_of_len {n : Nat} {l : List Char} (r : List Char)
    (h : l.length = n) : takeExact n (l ++ r) = some (l, r) := by
  subst h; exact takeExact_append l r

theorem takeExact_full {n : Nat} {l : List Char} (h : l.length = n) :
    takeExact n l = some (l, []) := by
  subst h
  have := takeExact_append l []
  rwa [List.append_nil] at this

theorem stripHyphens_build (a b c d e : List Char) (ha : a.length = 8)
    (hb : b.length = 4) (hc : c.length = 4) (hd : d.length = 4)
    (he : e.length = 12) :
    stripHyphens (a ++ '-' :: (b ++ '-' :: (c ++ '-' :: (d ++ '-' :: e)))) =
      some (a ++ b ++ c ++ d ++ e) := by
  simp only [stripHyphens]
  rw [takeExact_of_len _ ha]
  simp only [Option.some_bind, expectHyphen]
  rw [takeExact_of_len _ hb]
  simp only [Option.some_bind, expectHyphen]
  rw [takeExact_of_len _ hc]
  simp only [Option.some_bind, expectHyphen]
  rw [takeExact_of_len _ hd]
  simp only [Option.some_bind, expectHyphen]
  rw [takeExact_full he]
  simp

theorem uuid_chunks_assemble (h : List Char) (hh : h.length = 32) :
    h.take 8 ++ (h.drop 8).take 4 ++ (h.drop 12).take 4 ++ (h.drop 16).take 4 ++
      h.drop 20 = h := by
  have e20 : (h.drop 16).take 4 ++ h.drop 20 = h.drop 16 := by
    have := List.drop_take_append_drop h 16 4
    simpa using this
  have e16 : (h.drop 12).take 4 ++ h.drop 16 = h.drop 12 := by
    have := List.drop_take_append_drop h 12 4
    simpa using this
  have e12 : (h.drop 8).take 4 ++ h.drop 12 = h.drop 8 := by
    have := List.drop_take_append_drop h 8 4
    simpa using this
  calc h.take 8 ++ (h.drop 8).take 4 ++ (h.drop 12).take 4 ++
        (h.drop 16).take 4 ++ h.drop 20
      = h.take 8 ++ ((h.drop 8).take 4 ++ ((h.drop 12).take 4 ++
        ((h.drop 16).take 4 ++ h.drop 20))) := by simp [List.append_assoc]
    _ = h := by rw [e20, e16, e12, List.take_append_drop]

theorem stripHyphens_toChars (u : Uuid) :
    stripHyphens (uuidToChars u) = some (u.val.map hexChar) := by
  have hh : (u.val.map hexChar).length = 32 := by simp [u.2]
  show stripHyphens ((u.val.map hexChar).take 8 ++ '-' :: _) = _
  rw [stripHyphens_build _ _ _ _ _ (by simp [hh]) (by simp [hh]) (by simp [hh])
    (by simp [hh]) (by simp [hh])]
  congr 1
  exact uuid_chunks_assemble _ hh

theorem parseHyph_toChars (u : Uuid) :
    parseHyph (uuidToChars u) = some u := by
  simp only [parseHyph, stripHyphens_toChars]
  rw [parseHexFixed_map u.val u.2]
  rfl

theorem uuidToChars_head (u : Uuid) :
    ∃ (d : Fin 16) (rest : List Char),
      uuidToChars u = hexChar d :: rest := by
  obtain ⟨d0, t, ht⟩ : ∃ d0 t, u.val = d0 :: t := by
    cases hv : u.val with
    | nil => have := u.2; rw [hv] at this; simp at this
    | cons a b => exact ⟨a, b, rfl⟩
  simp only [uuidToChars]
  rw [ht]
  simp only [List.map_cons, List.take_succ_cons, List.cons_append]
  exact ⟨d0, _, rfl⟩

theorem uuidParse_toChars (u : Uuid) :
    uuidParseChars (uuidToChars u) = some u := by
  obtain ⟨d0, rest, hr⟩ := uuidToChars_head u
  have hlen : (uuidToChars u).length = 36 := uuidToChars_length u
  unfold uuidParseChars
  rw [if_neg (by omega)]
  rw [if_neg ?hurn]
  case hurn =>
    intro hu
    obtain ⟨t, ht⟩ := (leadsWith_iff urnTag (uuidToChars u)).mp hu
    rw [hr] at ht
    have : hexChar d0 = 'u' := by
      have := List.cons.inj (ht.trans rfl)
      simpa [urnTag] using this.1
    exact (hexChar_ne_special d0).1 this
  rw [if_neg ?hbrace]
  case hbrace =>
    intro hb
    have hh : (uuidToChars u).head? = some '{' := hb.1
    rw [hr] at hh
    simp only [List.head?_cons, Option.some.injEq] at hh
    exact (hexChar_ne_special d0).2.1 hh
  exact parseHyph_toChars u

theorem mem_uuidToChars {u : Uuid} {c : Char} (hc : c ∈ uuidToChars u) :
    c = '-' ∨ ∃ d, c = hexChar d := by
  have hm : ∀ l : List (Fin 16), c ∈ l.map hexChar → ∃ d, c = hexChar d := by
    intro l hl
    rcases List.mem_map.mp hl with ⟨d, _, rfl⟩
    exact ⟨d, rfl⟩
  simp only [uuidToChars, List.mem_append, List.mem_cons] at hc
  rcases hc with h | h | h | h | h | h | h | h | h
  · exact Or.inr (hm _ (List.take_subset _ _ h))
  · exact Or.inl h
  · exact Or.inr (hm _ (List.drop_subset _ _ (List.take_subset _ _ h)))
  · exact Or.inl h
  · exact Or.inr (hm _ (List.drop_subset _ _ (List.take_subset _ _ h)))
  · exact Or.inl h
  · exact Or.inr (hm _ (List.drop_subset _ _ (List.take_subset _ _ h)))
  · exact Or.inl h
  · exact Or.inr (hm _ (List.drop_subset _ _ h))

theorem dot_not_mem_uuidToChars (u : Uuid) : '.' ∉ uuidToChars u := by
  intro h
  rcases mem_uuidToChars h with h1 | ⟨d, h2⟩
  · exact absurd h1 (by decide)
  · exact absurd h2.symm (hexChar_ne_special d).2.2.1

theorem dash_mem_uuidToChars (u : Uuid) : '-' ∈ uuidToChars u := by
  show '-' ∈ _ ++ '-' :: _
  exact List.mem_append_right _ (List.mem_cons_self _ _)

theorem dash_not_mem_dotRepeat (k : Nat) : '-' ∉ dotRepeat k := by
  induction k with
  | zero => simp [dotRepeat]
  | succ k ih =>
    simp only [dotRepeat, List.mem_append]
    rintro (h | h)
    · exact ih h
    · exact absurd h (by decide)

/-! ### Rekeying preserves the set of `".content"`-suffixed names -/

theorem replaceAll_no_content {pat rep : List Char} (hpat : pat ≠ [])
    (hlen : rep.length = pat.length) (h8 : 8 ≤ rep.length)
    (hdot : '.' ∉ rep) {s : List Char}
    (hs : endsWithB dotContent s = false) :
    endsWithB dotContent (replaceAll pat rep s) = false := by
  have hp1 : 1 ≤ pat.length := List.length_pos.mpr hpat
  suffices hgen : ∀ (f : Nat) (s : List Char), s.length ≤ f →
      endsWithB dotContent s = false →
      endsWithB dotContent (replaceGo pat rep f s) = false by
    exact hgen s.length s (Nat.le_refl _) hs
  intro f
  induction f with
  | zero =>
    intro s hf hs0
    have : s = [] := List.length_eq_zero.mp (Nat.le_zero.mp hf)
    subst this
    rw [replaceGo_nil]
    exact endsWithB_nil (by decide)
  | succ f ih =>
    intro s hf hs0
    cases s with
    | nil =>
      rw [replaceGo_nil]
      exact endsWithB_nil (by decide)
    | cons c cs =>
      simp only [List.length_cons] at hf
      simp only [replaceGo]
      by_cases h : leadsWith pat (c :: cs) = true
      · rw [if_pos h]
        obtain ⟨t, ht⟩ := (leadsWith_iff pat (c :: cs)).mp h
        have hdrop : (c :: cs).drop pat.length = t := by
          rw [ht]; exact List.drop_left pat t
        have hlt : t.length ≤ f := by
          have := congrArg List.length ht
          simp only [List.length_cons, List.length_append] at this
          omega
        have hre : replaceGo pat rep f t = replaceAll pat rep t :=
          replaceGo_fuel rep hpat f t.length t hlt (Nat.le_refl _)
        have hrl : (replaceGo pat rep f t).length = t.length := by
          rw [hre]; exact replaceAll_length hpat hlen t
        rw [hdrop]
        by_cases h8t : 8 ≤ t.length
        · have hst : endsWithB dotContent t = false := by
            have := endsWithB_append (p := dotContent) (b := t) pat
              (by simpa [dotContent] using h8t)
            rw [← ht] at this
            rw [← this]
            exact hs0
          have hrt := ih t hlt hst
          have : endsWithB dotContent (rep ++ replaceGo pat rep f t) =
              endsWithB dotContent (replaceGo pat rep f t) :=
            endsWithB_append rep (by simpa [dotContent, hrl] using h8t)
          rw [this]
          exact hrt
        · push_neg at h8t
          by_contra hcontra
          rw [Bool.not_eq_false] at hcontra
          rw [endsWithB_iff] at hcontra
          have hm : (rep ++ replaceGo pat rep f t).length - dotContent.length =
              rep.length + t.length - 8 := by
            simp [List.length_append, hrl, dotContent]
          rw [hm] at hcontra
          have hmle : rep.length + t.length - 8 ≤ rep.length := by omega
          rw [List.drop_append_eq_append_drop] at hcontra
          have hz : rep.length + t.length - 8 - rep.length = 0 := by omega
          rw [hz, List.drop_zero] at hcontra
          have hne : rep.drop (rep.length + t.length - 8) ≠ [] := by
            intro hnil
            have := congrArg List.length hnil
            simp only [List.length_drop, List.length_nil] at this
            omega
          cases hdm : rep.drop (rep.length + t.length - 8) with
          | nil => exact hne hdm
          | cons x xs =>
            rw [hdm] at hcontra
            have hx : x = '.' := by
              have h3 : x :: (xs ++ replaceGo pat rep f t) =
                  '.' :: ['c', 'o', 'n', 't', 'e', 'n', 't'] := by
                simpa [dotContent] using hcontra
              exact (List.cons.inj h3).1
            have : x ∈ rep := List.drop_subset _ _ (hdm ▸ List.mem_cons_self x xs)
            rw [hx] at this
            exact hdot this
      · rw [if_neg h]
        by_cases h8c : 8 ≤ cs.length
        · have hsc : endsWithB dotContent cs = false := by
            rw [← endsWithB_cons c (by simpa [dotContent] using h8c)]
            exact hs0
          have hrc := ih cs (by omega) hsc
          have hrcl : (replaceGo pat rep f cs).length = cs.length := by
            rw [replaceGo_fuel rep hpat f cs.length cs (by omega) (Nat.le_refl _)]
            exact replaceAll_length hpat hlen cs
          rw [endsWithB_cons c (by simpa [dotContent, hrcl] using h8c)]
          exact hrc
        · push_neg at h8c
          have hsmall : replaceGo pat rep f cs = cs := by
            rw [replaceGo_fuel rep hpat f cs.length cs (by omega) (Nat.le_refl _)]
            exact replaceAll_small rep (by omega)
          rw [hsmall]
          exact hs0

/-! ### Lemmas about `id_from_zip` and `replace_id_in_zip` -/

theorem uuidToChars_ne_nil (u : Uuid) : uuidToChars u ≠ [] := by
  intro h
  have := congrArg List.length h
  rw [uuidToChars_length] at this
  simp at this

theorem endsWithB_dot_uuidToChars (u : Uuid) :
    endsWithB dotContent (uuidToChars u) = false := by
  by_contra h
  rw [Bool.not_eq_false, endsWithB_iff] at h
  have : '.' ∈ (uuidToChars u).drop ((uuidToChars u).length - dotContent.length) := by
    rw [h]; decide
  exact dot_not_mem_uuidToChars u (List.drop_subset _ _ this)

theorem endsWithB_dotRepeat {k : Nat} (x : List Char) (hk : 1 ≤ k) :
    endsWithB dotContent (x ++ dotRepeat k) = true := by
  obtain ⟨j, rfl⟩ : ∃ j, k = j + 1 := ⟨k - 1, by omega⟩
  show endsWithB dotContent (x ++ (dotRepeat j ++ dotContent)) = true
  rw [← List.append_assoc]
  exact endsWithB_append_self dotContent (x ++ dotRepeat j)

theorem trim_canonical (u : Uuid) (k : Nat) :
    trimEndMatches dotContent (uuidToChars u ++ dotRepeat k) = uuidToChars u := by
  rw [trimEndMatches_dotRepeat]
  exact trimEndMatches_no_suffix (endsWithB_dot_uuidToChars u)

theorem replaceAll_canonical (o n : Uuid) (k : Nat) :
    replaceAll (uuidToChars o) (uuidToChars n) (uuidToChars o ++ dotRepeat k) =
      uuidToChars n ++ dotRepeat k := by
  rw [replaceAll_cons_hit _ (uuidToChars_ne_nil o)]
  congr 1
  exact replaceAll_of_not_mem (dash_mem_uuidToChars o) (dash_not_mem_dotRepeat k)

theorem id_from_zip_no_suffix {a : List Entry}
    (h : ∀ e ∈ a, endsWithB dotContent e.name = false) :
    id_from_zip a = .error .InvalidZip := by
  induction a with
  | nil => rfl
  | cons e rest ih =>
    simp only [id_from_zip]
    rw [if_neg (by rw [h e (List.mem_cons_self e rest)]; simp)]
    exact ih fun e' he' => h e' (List.mem_cons_of_mem e he')

theorem id_from_zip_first_some {pre : List Entry} {e : Entry} {u : Uuid}
    (rest : List Entry)
    (hpre : ∀ e' ∈ pre, endsWithB dotContent e'.name = false)
    (he : endsWithB dotContent e.name = true)
    (hu : uuidParseChars (trimEndMatches dotContent e.name) = some u) :
    id_from_zip (pre ++ e :: rest) = .ok u := by
  induction pre with
  | nil =>
    simp only [List.nil_append, id_from_zip, if_pos he, hu]
  | cons p ps ih =>
    simp only [List.cons_append, id_from_zip]
    rw [if_neg (by rw [hpre p (List.mem_cons_self p ps)]; simp)]
    exact ih fun e' he' => hpre e' (List.mem_cons_of_mem p he')

theorem id_from_zip_first_none {pre : List Entry} {e : Entry}
    (rest : List Entry)
    (hpre : ∀ e' ∈ pre, endsWithB dotContent e'.name = false)
    (he : endsWithB dotContent e.name = true)
    (hu : uuidParseChars (trimEndMatches dotContent e.name) = none) :
    id_from_zip (pre ++ e :: rest) = .error .UuidError := by
  induction pre with
  | nil =>
    simp only [List.nil_append, id_from_zip, if_pos he, hu]
  | cons p ps ih =>
    simp only [List.cons_append, id_from_zip]
    rw [if_neg (by rw [hpre p (List.mem_cons_self p ps)]; simp)]
    exact ih fun e' he' => hpre e' (List.mem_cons_of_mem p he')

/-! ### Lemmas about the document index -/

theorem insertDoc_not_mem {acc : List Document} {d : Document}
    (h : ∀ e ∈ acc, e.id ≠ d.id) : insertDoc acc d = acc ++ [d] := by
  induction acc with
  | nil => rfl
  | cons x xs ih =>
    simp only [insertDoc]
    rw [if_neg (h x (List.mem_cons_self x xs))]
    rw [ih fun e he => h e (List.mem_cons_of_mem x he)]
    rfl

theorem foldl_insertDoc (l : List Document) :
    ∀ acc : List Document, l.Pairwise (fun a b => a.id ≠ b.id) →
      (∀ e ∈ acc, ∀ x ∈ l, e.id ≠ x.id) →
      l.foldl insertDoc acc = acc ++ l := by
  induction l with
  | nil => intro acc _ _; simp
  | cons d ds ih =>
    intro acc hpw hdisj
    have hpw' := List.pairwise_cons.mp hpw
    simp only [List.foldl_cons]
    rw [insertDoc_not_mem fun e he => hdisj e he d (List.mem_cons_self d ds)]
    rw [ih (acc ++ [d]) hpw'.2 ?hdisj2]
    · simp
    case hdisj2 =>
      intro e he x hx
      rcases List.mem_append.mp he with h1 | h1
      · exact hdisj e h1 x (List.mem_cons_of_mem d hx)
      · rcases List.mem_singleton.mp h1 with rfl
        exact hpw'.1 x hx

theorem buildIndex_unique {l : List Document}
    (h : l.Pairwise (fun a b => a.id ≠ b.id)) : buildIndex l = l := by
  have := foldl_insertDoc l [] h (by simp)
  simpa [buildIndex] using this

theorem getDoc_mem_unique {l : List Document} {d : Document}
    (h : l.Pairwise (fun a b => a.id ≠ b.id)) (hd : d ∈ l) :
    getDoc l d.id = some d := by
  induction l with
  | nil => cases hd
  | cons x xs ih =>
    have hpw := List.pairwise_cons.mp h
    rcases List.mem_cons.mp hd with rfl | hmem
    · simp [getDoc]
    · have hne : x.id ≠ d.id := hpw.1 d hmem
      simp only [getDoc, if_neg hne]
      exact ih hpw.2 hmem

theorem mem_childrenDocs {l : List Document} {p : Parent} {d : Document} :
    d ∈ childrenDocs l p ↔ d ∈ l ∧ d.parent = p := by
  induction l with
  | nil => simp [childrenDocs]
  | cons x xs ih =>
    simp only [childrenDocs]
    by_cases hx : x.parent = p
    · rw [if_pos hx]
      simp only [List.mem_cons, ih]
      constructor
      · rintro (rfl | ⟨hm, hp⟩)
        · exact ⟨Or.inl rfl, hx⟩
        · exact ⟨Or.inr hm, hp⟩
      · rintro ⟨rfl | hm, hp⟩
        · exact Or.inl rfl
        · exact Or.inr ⟨hm, hp⟩
    · rw [if_neg hx]
      simp only [List.mem_cons, ih]
      constructor
      · rintro ⟨hm, hp⟩
        exact ⟨Or.inr hm, hp⟩
      · rintro ⟨rfl | hm, hp⟩
        · exact absurd hp hx
        · exact ⟨hm, hp⟩

/-! ### Lemmas about `get_by_path` -/

theorem parentPath_some {path pp : List String}
    (h : parentPath path = some pp) :
    pp = path.dropLast ∧ pp.length + 1 = path.length := by
  cases path with
  | nil => cases h
  | cons x xs =>
    simp only [parentPath, Option.some.injEq] at h
    subst h
    simp

theorem resolveScan_congr {r₁ r₂ : List String → Option Document}
    {path : List String}
    (h : ∀ pp, parentPath path = some pp → r₁ pp = r₂ pp) :
    ∀ cs, resolveScan r₁ path cs = resolveScan r₂ path cs := by
  intro cs
  induction cs with
  | nil => rfl
  | cons d rest ih =>
    simp only [resolveScan]
    by_cases hname : d.visible_name = (lastName? path).getD ""
    · rw [if_pos hname, if_pos hname]
      cases hpp : parentPath path with
      | none => rfl
      | some pp =>
        cases hq : nodeParent? d.parent with
        | none => rfl
        | some pid =>
          show (match r₁ pp with
                | none => resolveScan r₁ path rest
                | some par =>
                  if par.id = pid then some d else resolveScan r₁ path rest) =
              (match r₂ pp with
                | none => resolveScan r₂ path rest
                | some par =>
                  if par.id = pid then some d else resolveScan r₂ path rest)
          rw [h pp hpp]
          cases hr : r₂ pp with
          | none => exact ih
          | some par =>
            by_cases hid : par.id = pid
            · simp only [if_pos hid]
            · simp only [if_neg hid]
              exact ih
    · rw [if_neg hname, if_neg hname]
      exact ih

theorem resolveFuel_suffices (all : List Document) :
    ∀ (f : Nat) (path : List String), path.length + 1 ≤ f →
      resolveFuel all f path = get_by_path all path := by
  intro f
  induction f with
  | zero => intro path h; omega
  | succ f ih =>
    intro path h
    show resolveScan (resolveFuel all f) path all =
      resolveScan (resolveFuel all path.length) path all
    apply resolveScan_congr
    intro pp hpp
    obtain ⟨_, hlen⟩ := parentPath_some hpp
    rw [ih pp (by omega), ← hlen]
    rfl

theorem resolveScan_sound {r : List String → Option Document}
    {path pp : List String} (hpp : parentPath path = some pp) :
    ∀ (cs : List Document) (d : Document) (pid : Uuid),
      resolveScan r path cs = some d → d.parent = Parent.Node pid →
      ∃ par, r pp = some par ∧ par.id = pid := by
  intro cs
  induction cs with
  | nil => intro d pid h _; cases h
  | cons e rest ih =>
    intro d pid hres hpar
    simp only [resolveScan] at hres
    by_cases hname : e.visible_name = (lastName? path).getD ""
    · rw [if_pos hname] at hres
      split at hres
      next pp' pid' heq1 heq2 =>
        split at hres
        next hr => exact ih d pid hres hpar
        next par hr =>
          split at hres
          next hid =>
            have he : e = d := Option.some.inj hres
            subst he
            rw [hpp] at heq1
            have hpp' : pp' = pp := (Option.some.inj heq1).symm
            subst hpp'
            rw [hpar] at heq2
            have : pid' = pid := by
              simpa [nodeParent?] using heq2.symm
            subst this
            exact ⟨par, hr, hid⟩
          next hid => exact ih d pid hres hpar
      next x y hnomatch =>
        have he : e = d := Option.some.inj hres
        subst he
        rw [hpar] at hnomatch
        rw [hpp] at hnomatch
        exact (hnomatch pp pid rfl rfl).elim
    · rw [if_neg hname] at hres
      exact ih d pid hres hpar

/-! ## Claim theorems -/

/-- C4: decoding the wire string produced by encoding any `Parent` value
yields that value again, and decoding any non-empty string that is neither
`"trash"` nor a valid UUID fails (returns `none`, never panics). -/
theorem parent_codec_roundtrip :
    (∀ p : Parent, deserialize_rm_parent p.to_rm_chars = some p) ∧
    (∀ cs : List Char, cs ≠ [] → cs ≠ "trash".data →
      uuidParseChars cs = none → deserialize_rm_parent cs = none) := by
  constructor
  · intro p
    cases p with
    | Root => rfl
    | Trash => decide
    | Node u =>
      unfold deserialize_rm_parent Parent.to_rm_chars
      rw [if_neg (uuidToChars_ne_nil u), if_neg ?htrash, uuidParse_toChars]
      · rfl
      case htrash =>
        intro h
        have h5 : ("trash".data).length = 5 := rfl
        have := congrArg List.length h
        rw [uuidToChars_length, h5] at this
        omega
  · intro cs h1 h2 h3
    unfold deserialize_rm_parent
    rw [if_neg h1, if_neg h2, h3]
    rfl

/-- Witness for C4 at the concrete parent `Node u0` and the concrete
malformed string `"x"`. -/
theorem parent_codec_roundtrip_witness :
    deserialize_rm_parent (Parent.Node u0).to_rm_chars = some (Parent.Node u0) ∧
    deserialize_rm_parent ['x'] = none :=
  ⟨parent_codec_roundtrip.1 (Parent.Node u0),
   parent_codec_roundtrip.2 ['x'] (by decide) (by decide) (by decide)⟩

/-- C8: `prepare_empty_zip_content id` is an archive with exactly one
entry, named `<id>.content`, whose payload is exactly the two bytes
`{` `}` (123 and 125). -/
theorem prepare_empty_zip_spec :
    ∀ id : Uuid,
      (prepare_empty_zip_content id).length = 1 ∧
      (prepare_empty_zip_content id).map Entry.name =
        [uuidToChars id ++ dotContent] ∧
      (prepare_empty_zip_content id).map Entry.content = [[123, 125]] :=
  fun _ => ⟨rfl, rfl, rfl⟩

/-- C7 counterexample: on an archive whose (only) `".content"` entry strips
to a non-identifier (`"xyz"`), `id_from_zip` fails with `UuidError` — the
propagated identifier-parse error — not with `InvalidZip`
(spec name `InvalidArchive`) as the claim states. -/
theorem id_from_zip_nonuuid_counterexample :
    id_from_zip aJunk = .error .UuidError ∧ Err.UuidError ≠ Err.InvalidZip :=
  ⟨by decide, by decide⟩

/-- C7 amended: `id_from_zip` scans entries in stored order and decides on
the first entry whose name ends with `".content"`: stripping every trailing
`".content"` and parsing the remainder yields the id; it fails with
`InvalidZip` when no entry has the suffix, and with the identifier-parse
error `UuidError` (not `InvalidZip`) when the remainder is not a valid
identifier. -/
theorem id_from_zip_spec :
    (∀ a : List Entry, (∀ e ∈ a, endsWithB dotContent e.name = false) →
      id_from_zip a = .error .InvalidZip) ∧
    (∀ (pre rest : List Entry) (e : Entry) (u : Uuid),
      (∀ e' ∈ pre, endsWithB dotContent e'.name = false) →
      endsWithB dotContent e.name = true →
      uuidParseChars (trimEndMatches dotContent e.name) = some u →
      id_from_zip (pre ++ e :: rest) = .ok u) ∧
    (∀ (pre rest : List Entry) (e : Entry),
      (∀ e' ∈ pre, endsWithB dotContent e'.name = false) →
      endsWithB dotContent e.name = true →
      uuidParseChars (trimEndMatches dotContent e.name) = none →
      id_from_zip (pre ++ e :: rest) = .error .UuidError) :=
  ⟨fun _ h => id_from_zip_no_suffix h,
   fun _ rest _ _ hpre he hu => id_from_zip_first_some rest hpre he hu,
   fun _ rest _ hpre he hu => id_from_zip_first_none rest hpre he hu⟩

/-- Witness for C7 (amended) at concrete archives: the empty archive, an
archive led by a canonically named entry, and the `"xyz.content"` one. -/
theorem id_from_zip_spec_witness :
    id_from_zip ([] : List Entry) = .error .InvalidZip ∧
    id_from_zip ([] ++ Entry.mk (uuidToChars u0 ++ dotContent) [9] :: []) =
      .ok u0 ∧
    id_from_zip ([] ++ Entry.mk (['x', 'y', 'z'] ++ dotContent) [] :: []) =
      .error .UuidError :=
  ⟨id_from_zip_spec.1 [] (by simp),
   id_from_zip_spec.2.1 [] [] _ u0 (by simp) (by decide) (by decide),
   id_from_zip_spec.2.2 [] [] _ (by simp) (by decide) (by decide)⟩

/-- C5 counterexample: the archive `aSimple` has a valid primary id
(`id_from_zip` accepts the simple non-hyphenated textual form), but
rekeying to `u1` leaves it byte-identical — `str::replace` only rewrites
the canonical hyphenated string, which does not occur in the name — so
finding the primary id of the rekeyed archive returns `u0`, not `u1`. -/
theorem rekey_simple_form_counterexample :
    id_from_zip aSimple = .ok u0 ∧
    replace_id_in_zip u1 aSimple = .ok aSimple ∧
    (replace_id_in_zip u1 aSimple).bind id_from_zip = .ok u0 ∧
    u0 ≠ u1 :=
  ⟨by decide, by decide, by decide, by decide⟩

/-- C5 amended: `find_primary_id (rekey new_id a) = new_id` holds for every
archive whose first `".content"`-suffixed entry is named by the *canonical*
string form of its id followed by one or more `".content"` suffixes (the
textual convention of the wire format); archives embedding the id in
another accepted textual form are rekeyed without renaming that entry. -/
theorem rekey_find_primary_amended (newId oldId : Uuid)
    (pre rest : List Entry) (e : Entry) (k : Nat)
    (hpre : ∀ e' ∈ pre, endsWithB dotContent e'.name = false)
    (hname : e.name = uuidToChars oldId ++ dotRepeat k) (hk : 1 ≤ k) :
    id_from_zip (pre ++ e :: rest) = .ok oldId ∧
    (replace_id_in_zip newId (pre ++ e :: rest)).bind id_from_zip =
      .ok newId := by
  have hends : endsWithB dotContent e.name = true := by
    rw [hname]; exact endsWithB_dotRepeat _ hk
  have htrim : trimEndMatches dotContent e.name = uuidToChars oldId := by
    rw [hname]; exact trim_canonical oldId k
  have hparse : uuidParseChars (trimEndMatches dotContent e.name) =
      some oldId := by
    rw [htrim]; exact uuidParse_toChars oldId
  have hfind : id_from_zip (pre ++ e :: rest) = .ok oldId :=
    id_from_zip_first_some rest hpre hends hparse
  refine ⟨hfind, ?_⟩
  have hrw : replace_id_in_zip newId (pre ++ e :: rest) =
      .ok ((pre ++ e :: rest).map fun e' =>
        { name := replaceAll (uuidToChars oldId) (uuidToChars newId) e'.name
          content := e'.content }) := by
    unfold replace_id_in_zip
    rw [hfind]
  rw [hrw]
  show id_from_zip ((pre ++ e :: rest).map fun e' =>
    ({ name := replaceAll (uuidToChars oldId) (uuidToChars newId) e'.name
       content := e'.content } : Entry)) = .ok newId
  rw [List.map_append, List.map_cons]
  apply id_from_zip_first_some
  · intro e' he'
    rcases List.mem_map.mp he' with ⟨e'', he'', rfl⟩
    show endsWithB dotContent
      (replaceAll (uuidToChars oldId) (uuidToChars newId) e''.name) = false
    exact replaceAll_no_content (uuidToChars_ne_nil oldId)
      (by rw [uuidToChars_length, uuidToChars_length])
      (by rw [uuidToChars_length]; omega)
      (dot_not_mem_uuidToChars newId) (hpre e'' he'')
  · show endsWithB dotContent
      (replaceAll (uuidToChars oldId) (uuidToChars newId) e.name) = true
    rw [hname, replaceAll_canonical]
    exact endsWithB_dotRepeat _ hk
  · show uuidParseChars (trimEndMatches dotContent
      (replaceAll (uuidToChars oldId) (uuidToChars newId) e.name)) =
        some newId
    rw [hname, replaceAll_canonical, trim_canonical]
    exact uuidParse_toChars newId

/-- Witness for C5 (amended) on a singleton canonically keyed archive. -/
theorem rekey_find_primary_amended_witness :
    id_from_zip ([] ++ Entry.mk (uuidToChars u0 ++ dotRepeat 1) [9] :: []) =
      .ok u0 ∧
    (replace_id_in_zip u1
      ([] ++ Entry.mk (uuidToChars u0 ++ dotRepeat 1) [9] :: [])).bind
        id_from_zip = .ok u1 :=
  rekey_find_primary_amended u1 u0 [] [] _ 1 (by simp) rfl (by decide)

/-- C6: on any archive with a valid primary id, rekeying succeeds, keeps
the entries' stored order and payload bytes (the content lists, in order,
are unchanged), and renames every entry by the whole-string replacement of
the old id's string form with the new id's; moreover the replacement
rewrites *every* occurrence — a name that starts with two copies of the old
id has both replaced, whatever follows. -/
theorem rekey_frame_spec :
    (∀ (newId oldId : Uuid) (a b : List Entry),
      id_from_zip a = .ok oldId → replace_id_in_zip newId a = .ok b →
      b.map Entry.content = a.map Entry.content ∧
      b.map Entry.name =
        a.map fun e =>
          replaceAll (uuidToChars oldId) (uuidToChars newId) e.name) ∧
    (∀ (oldId newId : Uuid) (s : List Char),
      replaceAll (uuidToChars oldId) (uuidToChars newId)
          (uuidToChars oldId ++ (uuidToChars oldId ++ s)) =
        uuidToChars newId ++ (uuidToChars newId ++
          replaceAll (uuidToChars oldId) (uuidToChars newId) s)) := by
  constructor
  · intro newId oldId a b h1 h2
    unfold replace_id_in_zip at h2
    rw [h1] at h2
    have hb := Except.ok.inj h2
    subst hb
    constructor
    · simp [List.map_map, Function.comp]
    · simp [List.map_map, Function.comp]
  · intro oldId newId s
    rw [replaceAll_cons_hit _ (uuidToChars_ne_nil oldId),
      replaceAll_cons_hit _ (uuidToChars_ne_nil oldId)]

/-- Witness for C6 on the canonical archive `aCanon` rekeyed to `u1`. -/
theorem rekey_frame_spec_witness :
    [Entry.mk (uuidToChars u1 ++ dotContent) [9]].map Entry.content =
      aCanon.map Entry.content ∧
    [Entry.mk (uuidToChars u1 ++ dotContent) [9]].map Entry.name =
      aCanon.map (fun e =>
        replaceAll (uuidToChars u0) (uuidToChars u1) e.name) :=
  rekey_frame_spec.1 u1 u0 aCanon _ (by decide) (by decide)

/-- C1, bug evidence: with client-proposed id `u0`, a server that confirms
`u1` in every phase, and an archive keyed to `u0`, `upload_zip` succeeds
and returns the server-confirmed `u1` — but the bytes it uploaded are the
archive still keyed to `u0`: the rekey call passes the original `id`
argument instead of the server-confirmed `upload_doc.id` that the
preceding line (and the parallel `create_folder` path) just set. -/
theorem upload_zip_rekeys_with_client_id :
    upload_zip u0 aCanon envReassign = .ok (aCanon, u1) ∧
    id_from_zip aCanon = .ok u0 ∧
    u0 ≠ u1 ∧
    create_folder u0 envReassign =
      .ok (prepare_empty_zip_content u1, u1) :=
  ⟨by decide, by decide, by decide, by decide⟩

/-- C2 counterexample: when the update-status response array is empty,
both `upload_zip` and `create_folder` reach `pop().unwrap()` on an empty
`Vec` and panic instead of surfacing an error. -/
theorem confirming_empty_panics_counterexample :
    upload_zip u0 aCanon envNoStatus = .panic ∧
    create_folder u0 envNoStatus = .panic :=
  ⟨by decide, by decide⟩

/-- C2 amended: with the requesting and uploading phases successful, a
zero-element update-status array makes the Confirming phase panic
(`pop().unwrap()`); an array of any other length — one or many — is
accepted with no protocol error: the *last* element alone decides the
outcome (its success flag and id).  The non-unit length is only logged. -/
theorem confirming_phase_amended (id : Uuid) (zip zc : List Entry)
    (env : Env) (r : UploadReqResponse)
    (hreq : env.reqResponses.getLast? = some r) (hrs : r.success = true)
    (hzip : replace_id_in_zip id zip = .ok zc) (hput : env.putStatus = 200) :
    (env.statusResponses = [] →
      upload_zip id zip env = .panic ∧ create_folder id env = .panic) ∧
    (∀ u : UpdateStatusResponse, env.statusResponses.getLast? = some u →
      upload_zip id zip env =
        (if u.success = true then .ok (zc, u.id) else .err .RmCloudError) ∧
      create_folder id env =
        (if u.success = true then .ok (prepare_empty_zip_content r.id, u.id)
         else .err .RmCloudError)) := by
  constructor
  · intro hempty
    constructor
    · simp [upload_zip, hreq, hrs, hzip, hput, hempty]
    · simp [create_folder, hreq, hrs, hput, hempty]
  · intro u hu
    constructor
    · by_cases hs : u.success = true
      · simp [upload_zip, hreq, hrs, hzip, hput, hu, hs]
      · simp [upload_zip, hreq, hrs, hzip, hput, hu, hs]
    · by_cases hs : u.success = true
      · simp [create_folder, hreq, hrs, hput, hu, hs]
      · simp [create_folder, hreq, hrs, hput, hu, hs]

/-- Witness for C2 (amended): the empty-array case panics on `envNoStatus`;
on `envReassign` (singleton array) the last element decides the result. -/
theorem confirming_phase_amended_witness :
    (upload_zip u0 aCanon envNoStatus = .panic ∧
      create_folder u0 envNoStatus = .panic) ∧
    upload_zip u0 aCanon envReassign = .ok (aCanon, u1) := by
  constructor
  · exact (confirming_phase_amended u0 aCanon aCanon envNoStatus (okReq u1)
      (by decide) (by decide) (by decide) (by decide)).1 rfl
  · have h := (confirming_phase_amended u0 aCanon aCanon envReassign
      (okReq u1) (by decide) (by decide) (by decide) (by decide)).2
      (okStatus u1) (by decide)
    simpa [okStatus] using h.1

/-- C10: in the Requesting phase an empty response array is fatal
(`RmCloudError`) for both `upload_zip` and `create_folder`, while an array
of several elements raises no error and behaves exactly as if only its
*last* element had been received (`Vec::pop`). -/
theorem requesting_uses_last (id : Uuid) (zip : List Entry) (env : Env)
    (rs : List UploadReqResponse) (r : UploadReqResponse) :
    (env.reqResponses = [] →
      upload_zip id zip env = .err .RmCloudError ∧
      create_folder id env = .err .RmCloudError) ∧
    (env.reqResponses = rs ++ [r] →
      upload_zip id zip env =
        upload_zip id zip { env with reqResponses := [r] } ∧
      create_folder id env =
        create_folder id { env with reqResponses := [r] }) := by
  constructor
  · intro h
    constructor
    · simp [upload_zip, h]
    · simp [create_folder, h]
  · intro h
    constructor
    · simp [upload_zip, h, List.getLast?_concat]
    · simp [create_folder, h, List.getLast?_concat]

/-- Witness for C10: a two-element request-response array behaves as the
singleton holding its last element, and the empty array errors. -/
theorem requesting_uses_last_witness :
    (upload_zip u0 aCanon (Env.mk [] 200 [okStatus u1]) =
        .err .RmCloudError ∧
      create_folder u0 (Env.mk [] 200 [okStatus u1]) =
        .err .RmCloudError) ∧
    (upload_zip u0 aCanon (Env.mk [okReq u0, okReq u1] 200 [okStatus u1]) =
        upload_zip u0 aCanon (Env.mk [okReq u1] 200 [okStatus u1]) ∧
      create_folder u0 (Env.mk [okReq u0, okReq u1] 200 [okStatus u1]) =
        create_folder u0 (Env.mk [okReq u1] 200 [okStatus u1])) :=
  ⟨(requesting_uses_last u0 aCanon (Env.mk [] 200 [okStatus u1])
      [] (okReq u1)).1 rfl,
   (requesting_uses_last u0 aCanon
      (Env.mk [okReq u0, okReq u1] 200 [okStatus u1]) [okReq u0]
      (okReq u1)).2 rfl⟩

/-- C3 counterexample: with one root-parented document named `"B"` and the
path `"A/B"` — which still has the remaining prefix `["A"]` — `get_by_path`
returns that document: `path.parent().zip(d_parent)` is `None` whenever the
candidate's parent is `Root` or `Trash`, so such candidates are returned
regardless of any remaining prefix (here the prefix `"A"` does not even
resolve). -/
theorem get_by_path_root_shortcut_counterexample :
    get_by_path [docRootB] ["A", "B"] = some docRootB ∧
    docRootB.parent = Parent.Root ∧
    parentPath ["A", "B"] = some ["A"] ∧
    get_by_path [docRootB] ["A"] = none :=
  ⟨by decide, by decide, by decide, by decide⟩

/-- C3 amended: when `get_by_path` returns a document whose parent is
`Node pid` and the path has a remaining prefix, resolving that prefix
yields a document whose id is `pid` — so a `Node`-parented document is
never matched through the wrong prefix; a `Root`/`Trash`-parented candidate
however is returned whenever its name matches the last component, even
when a remaining prefix exists. -/
theorem get_by_path_node_sound (all : List Document) (path pp : List String)
    (d : Document) (pid : Uuid)
    (hres : get_by_path all path = some d)
    (hpar : d.parent = Parent.Node pid)
    (hpp : parentPath path = some pp) :
    ∃ par, get_by_path all pp = some par ∧ par.id = pid := by
  obtain ⟨_, hlen⟩ := parentPath_some hpp
  obtain ⟨par, hp1, hp2⟩ := resolveScan_sound hpp all d pid hres hpar
  rw [resolveFuel_suffices all path.length pp (by omega)] at hp1
  exact ⟨par, hp1, hp2⟩

/-- Witness for C3 (amended) on the two-document tree `A (root) → B`. -/
theorem get_by_path_node_sound_witness :
    ∃ par, get_by_path [docA, docB] ["A"] = some par ∧ par.id = u0 :=
  get_by_path_node_sound [docA, docB] ["A", "B"] ["A"] docB u0
    (by decide) (by decide) (by decide)

/-- C9: building the index from a flat list with unique ids, `get` returns
the record with the queried id for every listed id, and `children` returns
exactly the documents whose `parent` field structurally equals the queried
`Parent` value. -/
theorem index_get_children_spec (l : List Document)
    (h : l.Pairwise fun a b => a.id ≠ b.id) :
    (∀ d ∈ l, getDoc (buildIndex l) d.id = some d) ∧
    (∀ (p : Parent) (d : Document),
      d ∈ childrenDocs (buildIndex l) p ↔ d ∈ l ∧ d.parent = p) := by
  rw [buildIndex_unique h]
  exact ⟨fun d hd => getDoc_mem_unique h hd, fun _ _ => mem_childrenDocs⟩

/-- Witness for C9 on the concrete index `[docA, docB]`. -/
theorem index_get_children_spec_witness :
    getDoc (buildIndex [docA, docB]) docA.id = some docA ∧
    (docB ∈ childrenDocs (buildIndex [docA, docB]) (Parent.Node u0) ↔
      docB ∈ [docA, docB] ∧ docB.parent = Parent.Node u0) := by
  have h := index_get_children_spec [docA, docB]
    (by simp [List.pairwise_cons]; decide)
  exact ⟨h.1 docA (by simp), h.2 (Parent.Node u0) docB⟩
